import Mathlib

/-!
Shallow embedding of the torsion-mesh conformer generator from
`src/ipython/well_conf_rdkit.ipynb` (cell 2): `get_separable_angle_list`,
`get_angle_mesh` and `conformers_by_change_torsions`, together with the
bookkeeping dictionary they populate.

Angles are modelled as integers (the notebook uses Python ints / numpy
floats; all the arithmetic the claims are about is exact integer
arithmetic).  Python floor division `//` is `Int.fdiv`.  The Python
exceptions that can cross the function boundary are modelled with
`Except PyErr`.
-/

set_option autoImplicit false

/-- Exceptions that can escape the embedded functions.  `indexError` models
Python `IndexError` from `original_angles[ind]`; a `ZeroDivisionError` from
`360 // angles` is caught inside `get_separable_angle_list` and never
escapes, so it has no constructor here.  `lengthMismatch` is the explicit
validation error the spec asks for; the source never raises it. -/
inductive PyErr where
  | indexError
  | lengthMismatch
deriving DecidableEq, Repr

/-- One per-dimension sampling specification, the tagged form of the
dynamic `isinstance` dispatch in `get_separable_angle_list`: an `int`
element of `samplings` is a step count, a `list` element is an explicit
offset list. -/
inductive Sampling where
  | stepCount (n : Int)
  | explicitOffsets (os : List Int)
deriving DecidableEq, Repr

/-- Python `range n` for an `Int` argument (as used in
`np.array([step * i for i in range(angles)])`): empty for `n ≤ 0`. -/
def pyRange (n : Int) : List Int :=
  (List.range n.toNat).map Int.ofNat

/-- One iteration body of the `for ind, angles in enumerate(samplings)`
loop of `get_separable_angle_list`.  For a step count the source first
computes `360 // angles` (catching `ZeroDivisionError`, which yields the
`[reference]` singleton), then adds `original_angles[ind]` to the sampled
offsets; for an explicit list it adds `original_angles[ind]` to every
offset.  Every branch reads `original_angles[ind]`, so a short reference
list raises `IndexError` in every branch. -/
def buildSchedule (orig : List Int) (ind : Nat) : Sampling → Except PyErr (List Int)
  | .stepCount n =>
    if n = 0 then
      match orig[ind]? with
      | none => .error .indexError
      | some r => .ok [r + 0]
    else
      match orig[ind]? with
      | none => .error .indexError
      | some r => .ok ((pyRange n).map (fun i => r + Int.fdiv 360 n * i))
  | .explicitOffsets os =>
    match orig[ind]? with
    | none => .error .indexError
    | some r => .ok (os.map (fun o => r + o))

/-- The loop of `get_separable_angle_list`, accumulating `angle_list` in
order and propagating the first exception. -/
def gsalLoop (orig : List Int) : Nat → List Sampling → Except PyErr (List (List Int))
  | _, [] => .ok []
  | ind, s :: rest =>
    match buildSchedule orig ind s with
    | .error e => .error e
    | .ok sched =>
      match gsalLoop orig (ind + 1) rest with
      | .error e => .error e
      | .ok tail => .ok (sched :: tail)

/-- `get_separable_angle_list(samplings, original_angles)`.  The source's
first line `original_angles = original_angles or len(samplings) * [0.]`
replaces a falsy argument — `None` (here `none`) or the empty list — by a
zero list of the same length as `samplings`. -/
def get_separable_angle_list (samplings : List Sampling)
    (original_angles : Option (List Int)) : Except PyErr (List (List Int)) :=
  let orig :=
    match original_angles with
    | none => List.replicate samplings.length 0
    | some l => if l = [] then List.replicate samplings.length 0 else l
  gsalLoop orig 0 samplings

/-- `get_angle_mesh(angle_list)`, i.e. `itertools.product(*angle_list)`:
the Cartesian product in row-major order, last dimension varying
fastest, as a finite list of tuples. -/
def get_angle_mesh : List (List Int) → List (List Int)
  | [] => [[]]
  | l :: ls => l.flatMap (fun x => (get_angle_mesh ls).map (fun t => x :: t))

/-- The external conformer handle (`RDKitConf`) capability used by
`conformers_by_change_torsions`, over an abstract state type `σ` and an
abstract materialized-coordinates type `C`.  `SetAllTorsionsDeg` mutates
the state; `GetPositions` and `HasCollidingAtoms` are reads. -/
structure RDKitConf (σ : Type) (C : Type) where
  SetAllTorsionsDeg : σ → List Int → σ
  GetPositions : σ → C
  HasCollidingAtoms : σ → Bool
  GetTorsionalModes : σ → List (List Nat)

/-- One `bookkeep[ind]` entry: the source stores
`{'angles': angles, 'coords': conf.GetPositions().tolist(),
'colliding_atoms': ...}` where `colliding_atoms` is a `bool` when
`on_the_fly_check == True` and `None` otherwise. -/
structure ConformerRecord (C : Type) where
  angles : List Int
  coords : C
  colliding_atoms : Option Bool
deriving DecidableEq

/-- Python-dict assignment `d[k] = v` on an insertion-ordered dictionary:
overwrite in place when the key exists, append otherwise. -/
def dictInsert {α : Type} (d : List (Nat × α)) (k : Nat) (v : α) : List (Nat × α) :=
  if d.any (fun p => p.1 == k) then
    d.map (fun p => if p.1 == k then (k, v) else p)
  else
    d ++ [(k, v)]

/-- The `for ind, angles in enumerate(angle_mesh)` loop of
`conformers_by_change_torsions`: set all torsions, read the positions of
the mutated handle, optionally evaluate the collision predicate, store the
record at key `ind`.  Returns the final bookkeeping dict and the final
handle state (the handle is mutated in place by the source). -/
def confLoop {σ C : Type} (conf : RDKitConf σ C) (on_the_fly_check : Bool) :
    List (List Int) → Nat → σ → List (Nat × ConformerRecord C) →
      List (Nat × ConformerRecord C) × σ
  | [], _, s, bk => (bk, s)
  | angles :: rest, ind, s, bk =>
    let s' := conf.SetAllTorsionsDeg s angles
    let rcd : ConformerRecord C :=
      { angles := angles
        coords := conf.GetPositions s'
        colliding_atoms :=
          if on_the_fly_check then some (conf.HasCollidingAtoms s') else none }
    confLoop conf on_the_fly_check rest (ind + 1) s' (dictInsert bk ind rcd)

/-- `conformers_by_change_torsions(conf, angle_mesh, bookkeep, torsions,
on_the_fly_check)`.  The source's `if not torsions: torsions =
conf.GetTorsionalModes()` computes a default torsion list that the loop
never reads (`SetAllTorsionsDeg` uses the handle's own modes), which the
unused `_torsions` binding mirrors. -/
def conformers_by_change_torsions {σ C : Type} (conf : RDKitConf σ C) (s : σ)
    (angle_mesh : List (List Int)) (bookkeep : List (Nat × ConformerRecord C))
    (torsions : Option (List (List Nat))) (on_the_fly_check : Bool) :
    List (Nat × ConformerRecord C) × σ :=
  let _torsions :=
    match torsions with
    | none => conf.GetTorsionalModes s
    | some t => if t.isEmpty then conf.GetTorsionalModes s else t
  confLoop conf on_the_fly_check angle_mesh 0 s bookkeep

/-- The full generation pipeline as exercised in cell 7 of the notebook:
build the per-dimension schedules, form the Cartesian mesh, then populate
an initially-empty bookkeeping dict. -/
def pipeline {σ C : Type} (conf : RDKitConf σ C) (s : σ) (samplings : List Sampling)
    (original_angles : Option (List Int)) (on_the_fly_check : Bool) :
    Except PyErr (List (Nat × ConformerRecord C) × σ) :=
  match get_separable_angle_list samplings original_angles with
  | .error e => .error e
  | .ok scheds =>
    .ok (conformers_by_change_torsions conf s (get_angle_mesh scheds) [] none
      on_the_fly_check)

example : get_separable_angle_list
    [Sampling.explicitOffsets [120, 240], Sampling.stepCount 4, Sampling.stepCount 0]
    none = .ok [[120, 240], [0, 90, 180, 270], [0]] := by rfl

example : get_angle_mesh [[0, 90], [0, 180]] =
    [[0, 0], [0, 180], [90, 0], [90, 180]] := by rfl

example : get_separable_angle_list [Sampling.stepCount 2] (some []) =
    .ok [[0, 180]] := by rfl

example : get_separable_angle_list [Sampling.stepCount (-2)] (some [7]) =
    .ok [[]] := by rfl

example : get_separable_angle_list [Sampling.stepCount 2, Sampling.stepCount 2]
    (some [5]) = .error .indexError := by rfl

/-! ### Per-dimension schedule values -/

/-- The schedule `get_separable_angle_list` computes for one dimension
whose reference angle `r` was read successfully, mirroring the three
branches of the loop body. -/
def sched_of (r : Int) : Sampling → List Int
  | .stepCount n =>
    if n = 0 then [r + 0]
    else (pyRange n).map (fun i => r + Int.fdiv 360 n * i)
  | .explicitOffsets os => os.map (fun o => r + o)

theorem buildSchedule_ok_of_get {orig : List Int} {ind : Nat} {r : Int}
    (h : orig[ind]? = some r) (s : Sampling) :
    buildSchedule orig ind s = .ok (sched_of r s) := by
  cases s with
  | stepCount n =>
    by_cases hn : n = 0 <;> simp [buildSchedule, sched_of, h, hn]
  | explicitOffsets os => simp [buildSchedule, sched_of, h]

theorem buildSchedule_err {orig : List Int} {ind : Nat}
    (h : orig.length ≤ ind) (s : Sampling) :
    buildSchedule orig ind s = .error .indexError := by
  have hnone : orig[ind]? = none := by
    simp [List.getElem?_eq_none h]
  cases s with
  | stepCount n =>
    by_cases hn : n = 0 <;> simp [buildSchedule, hnone, hn]
  | explicitOffsets os => simp [buildSchedule, hnone]

theorem buildSchedule_ok_inv {orig : List Int} {ind : Nat} {s : Sampling}
    {sched : List Int} (h : buildSchedule orig ind s = .ok sched) :
    ∃ r, orig[ind]? = some r ∧ sched = sched_of r s := by
  cases hr : orig[ind]? with
  | none =>
    have := buildSchedule_err (List.getElem?_eq_none_iff.mp hr) s
    rw [this] at h
    exact absurd h (by simp)
  | some r =>
    rw [buildSchedule_ok_of_get hr s] at h
    exact ⟨r, rfl, (Except.ok.inj h).symm⟩

theorem gsalLoop_get_ok {orig : List Int} :
    ∀ (samplings : List Sampling) (ind : Nat) (scheds : List (List Int)),
      gsalLoop orig ind samplings = .ok scheds →
      ∀ (j : Nat) (s : Sampling), samplings[j]? = some s →
        ∃ r, orig[ind + j]? = some r ∧ scheds[j]? = some (sched_of r s) := by
  intro samplings
  induction samplings with
  | nil => intro ind scheds _ j s hj; simp at hj
  | cons s0 rest ih =>
    intro ind scheds hok j s hj
    rw [gsalLoop] at hok
    cases hb : buildSchedule orig ind s0 with
    | error e => rw [hb] at hok; exact absurd hok (by simp)
    | ok sched0 =>
      rw [hb] at hok
      cases ht : gsalLoop orig (ind + 1) rest with
      | error e => rw [ht] at hok; exact absurd hok (by simp)
      | ok tail =>
        rw [ht] at hok
        have hscheds : scheds = sched0 :: tail := by
          simpa using hok.symm
        subst hscheds
        cases j with
        | zero =>
          have hs : s = s0 := by
            have := hj
            simp at this
            exact this.symm
          subst hs
          obtain ⟨r, hr, hv⟩ := buildSchedule_ok_inv hb
          exact ⟨r, by simpa using hr, by simpa using hv⟩
        | succ j =>
          have hj' : rest[j]? = some s := by simpa using hj
          obtain ⟨r, hr, hv⟩ := ih (ind + 1) tail ht j s hj'
          refine ⟨r, ?_, by simpa using hv⟩
          have : ind + (j + 1) = ind + 1 + j := by omega
          rw [this]; exact hr

theorem gsalLoop_isOk {orig : List Int} :
    ∀ (samplings : List Sampling) (ind : Nat),
      ind + samplings.length ≤ orig.length →
      ∃ scheds, gsalLoop orig ind samplings = .ok scheds := by
  intro samplings
  induction samplings with
  | nil => intro ind _; exact ⟨[], rfl⟩
  | cons s0 rest ih =>
    intro ind hlen
    have hind : ind < orig.length := by
      simp at hlen; omega
    have hget : orig[ind]? = some orig[ind] :=
      List.getElem?_eq_getElem hind
    obtain ⟨tail, htail⟩ := ih (ind + 1) (by simp at hlen ⊢; omega)
    exact ⟨sched_of orig[ind] s0 :: tail, by
      rw [gsalLoop, buildSchedule_ok_of_get hget s0, htail]⟩

theorem gsalLoop_err {orig : List Int} :
    ∀ (samplings : List Sampling) (ind : Nat),
      ind ≤ orig.length → orig.length < ind + samplings.length →
      gsalLoop orig ind samplings = .error .indexError := by
  intro samplings
  induction samplings with
  | nil => intro ind h1 h2; simp at h2; omega
  | cons s0 rest ih =>
    intro ind h1 h2
    rcases Nat.lt_or_ge ind orig.length with hlt | hge
    · have hget : orig[ind]? = some orig[ind] :=
        List.getElem?_eq_getElem hlt
      rw [gsalLoop, buildSchedule_ok_of_get hget s0,
        ih (ind + 1) hlt (by simp at h2 ⊢; omega)]
    · have heq : orig.length ≤ ind := hge
      rw [gsalLoop, buildSchedule_err heq s0]

theorem sched_of_stepCount_zero (r : Int) : sched_of r (.stepCount 0) = [r] := by
  simp [sched_of]

theorem sched_of_stepCount_pos {n : Int} (hn : 0 < n) (r : Int) :
    sched_of r (.stepCount n) =
      (List.range n.toNat).map (fun k : Nat => r + (k : Int) * (360 / n)) := by
  have hne : n ≠ 0 := by omega
  have hdiv : Int.fdiv 360 n = 360 / n := Int.fdiv_eq_ediv 360 (by omega)
  simp only [sched_of, hne, if_false, pyRange, List.map_map]
  apply List.map_congr_left
  intro k _
  simp only [Function.comp_apply, hdiv, Int.ofNat_eq_coe]
  rw [mul_comm]

theorem sched_of_stepCount_neg {n : Int} (hn : n < 0) (r : Int) :
    sched_of r (.stepCount n) = [] := by
  have hne : n ≠ 0 := by omega
  have h0 : n.toNat = 0 := Int.toNat_of_nonpos (by omega)
  simp [sched_of, hne, pyRange, h0]

theorem gsal_some_of_ne_nil {orig : List Int} (h : orig ≠ [])
    (samplings : List Sampling) :
    get_separable_angle_list samplings (some orig) = gsalLoop orig 0 samplings := by
  simp [get_separable_angle_list, h]

theorem gsal_get_ok {samplings : List Sampling} {orig : List Int}
    {scheds : List (List Int)} {ind : Nat} {s : Sampling} {r : Int}
    (hok : get_separable_angle_list samplings (some orig) = .ok scheds)
    (hs : samplings[ind]? = some s) (hr : orig[ind]? = some r) :
    scheds[ind]? = some (sched_of r s) := by
  have hne : orig ≠ [] := by
    rintro rfl; simp at hr
  rw [gsal_some_of_ne_nil hne] at hok
  obtain ⟨r', hr', hv⟩ := gsalLoop_get_ok samplings 0 scheds hok ind s hs
  rw [Nat.zero_add, hr] at hr'
  cases hr'
  exact hv

theorem gsal_none_get_ok {samplings : List Sampling} {scheds : List (List Int)}
    {ind : Nat} {s : Sampling}
    (hok : get_separable_angle_list samplings none = .ok scheds)
    (hs : samplings[ind]? = some s) :
    scheds[ind]? = some (sched_of 0 s) := by
  have hind : ind < samplings.length := by
    cases h : samplings[ind]? with
    | none => rw [h] at hs; cases hs
    | some _ => exact (List.getElem?_eq_some_iff.mp h).1
  have horig : (List.replicate samplings.length (0 : Int))[ind]? = some 0 := by
    simp [List.getElem?_replicate, hind]
  obtain ⟨r', hr', hv⟩ :=
    gsalLoop_get_ok samplings 0 scheds hok ind s hs
  rw [Nat.zero_add, horig] at hr'
  cases hr'
  exact hv

/-! ### Claims about `get_separable_angle_list` -/

/-- C3: for a step-count dimension `n > 0` with reference angle `r`,
`get_separable_angle_list` produces for that dimension a schedule of
exactly `n` values whose `k`-th value is `r + k * floor(360 / n)`, with
no normalization into `[0, 360)`. -/
theorem step_count_schedule_values {samplings : List Sampling} {orig : List Int}
    {scheds : List (List Int)} {ind : Nat} {n r : Int}
    (hok : get_separable_angle_list samplings (some orig) = .ok scheds)
    (hs : samplings[ind]? = some (.stepCount n))
    (hr : orig[ind]? = some r)
    (hn : 0 < n) :
    ∃ sched, scheds[ind]? = some sched ∧ sched.length = n.toNat ∧
      ∀ k : Nat, k < n.toNat → sched[k]? = some (r + (k : Int) * (360 / n)) := by
  refine ⟨sched_of r (.stepCount n), gsal_get_ok hok hs hr, ?_, ?_⟩
  · rw [sched_of_stepCount_pos hn]; simp
  · intro k hk
    rw [sched_of_stepCount_pos hn]
    rw [List.getElem?_map, List.getElem?_range hk]
    rfl

/-- Witness for `step_count_schedule_values` at samplings `[4]` with
reference `[10]`: schedule `[10, 100, 190, 280]`. -/
theorem step_count_schedule_values_witness :
    ∃ sched, ([[(10 : Int), 100, 190, 280]] : List (List Int))[0]? = some sched ∧
      sched.length = (4 : Int).toNat ∧
      ∀ k : Nat, k < (4 : Int).toNat →
        sched[k]? = some (10 + (k : Int) * (360 / 4)) :=
  @step_count_schedule_values [.stepCount 4] [10] [[10, 100, 190, 280]] 0 4 10
    (by rfl) (by rfl) (by rfl) (by decide)

/-- C4: a step count of `0` is not an error: with enough reference angles
the whole call succeeds, and the dimension's schedule is exactly `[r]`. -/
theorem step_count_zero_single {samplings : List Sampling} {orig : List Int}
    {ind : Nat} {r : Int}
    (hs : samplings[ind]? = some (.stepCount 0))
    (hr : orig[ind]? = some r)
    (hlen : samplings.length ≤ orig.length) :
    ∃ scheds, get_separable_angle_list samplings (some orig) = .ok scheds ∧
      scheds[ind]? = some [r] := by
  have hne : orig ≠ [] := by
    rintro rfl; simp at hr
  have hlen0 : 0 + samplings.length ≤ orig.length := by omega
  obtain ⟨scheds, hok⟩ := gsalLoop_isOk samplings 0 hlen0
  have hok' : get_separable_angle_list samplings (some orig) = .ok scheds := by
    rw [gsal_some_of_ne_nil hne]; exact hok
  refine ⟨scheds, hok', ?_⟩
  have := gsal_get_ok hok' hs hr
  rwa [sched_of_stepCount_zero] at this

/-- C5: an explicit-offsets dimension with reference `r` yields the
schedule `[r + o_0, …, r + o_{m-1}]` in input order; and with
`original_angles` absent, the reference used for every dimension is `0`. -/
theorem explicit_offsets_schedule :
    (∀ (samplings : List Sampling) (orig : List Int) (scheds : List (List Int))
       (ind : Nat) (os : List Int) (r : Int),
       get_separable_angle_list samplings (some orig) = .ok scheds →
       samplings[ind]? = some (.explicitOffsets os) →
       orig[ind]? = some r →
       scheds[ind]? = some (os.map (fun o => r + o))) ∧
    (∀ (samplings : List Sampling) (scheds : List (List Int)) (ind : Nat)
       (s : Sampling),
       get_separable_angle_list samplings none = .ok scheds →
       samplings[ind]? = some s →
       scheds[ind]? = some (sched_of 0 s)) := by
  constructor
  · intro samplings orig scheds ind os r hok hs hr
    exact gsal_get_ok hok hs hr
  · intro samplings scheds ind s hok hs
    exact gsal_none_get_ok hok hs

/-- Witness for `explicit_offsets_schedule`: offsets `[120, 240]` with
reference `7` give `[127, 247]`; with the argument absent, a step count of
`2` gives `[0, 180]` (reference `0`). -/
theorem explicit_offsets_schedule_witness :
    ([[(127 : Int), 247]] : List (List Int))[0]? = some ([120, 240].map (fun o => (7 : Int) + o)) ∧
    ([[(0 : Int), 180]] : List (List Int))[0]? = some (sched_of 0 (.stepCount 2)) :=
  ⟨explicit_offsets_schedule.1 [.explicitOffsets [120, 240]] [7] [[127, 247]]
      0 [120, 240] 7 (by rfl) (by rfl) (by rfl),
    explicit_offsets_schedule.2 [.stepCount 2] [[0, 180]] 0 (.stepCount 2)
      (by rfl) (by rfl)⟩

/-- C7 counterexample: `original_angles = []` is supplied and strictly
shorter than `samplings`, yet `get_separable_angle_list` raises nothing and
returns a schedule (the empty list is treated as absent). -/
theorem short_reference_cex :
    ([] : List Int).length < ([Sampling.stepCount 2] : List Sampling).length ∧
    get_separable_angle_list [Sampling.stepCount 2] (some []) =
      .ok [[0, 180]] :=
  ⟨by decide, by rfl⟩

/-- C7, amended: a supplied `original_angles` that is non-empty and
strictly shorter than `samplings` makes `get_separable_angle_list` raise
`IndexError` (a generic index-out-of-range reached during the loop, not a
dedicated length-mismatch validation); a supplied empty list is treated
exactly like an absent argument, all references defaulting to `0`, and
raises nothing. -/
theorem short_reference_error :
    (∀ (samplings : List Sampling) (orig : List Int),
       orig ≠ [] → orig.length < samplings.length →
       get_separable_angle_list samplings (some orig) = .error .indexError) ∧
    (∀ samplings : List Sampling,
       get_separable_angle_list samplings (some []) =
         get_separable_angle_list samplings none) := by
  constructor
  · intro samplings orig hne hlt
    rw [gsal_some_of_ne_nil hne samplings]
    exact gsalLoop_err samplings 0 (Nat.zero_le _) (by omega)
  · intro samplings
    rfl

/-- Witness for `short_reference_error`: reference list `[5]` against two
step-count dimensions raises `IndexError`; the empty reference list
behaves like the absent argument. -/
theorem short_reference_error_witness :
    get_separable_angle_list [Sampling.stepCount 2, Sampling.stepCount 2]
      (some [5]) = .error .indexError ∧
    get_separable_angle_list [Sampling.stepCount 2] (some []) =
      get_separable_angle_list [Sampling.stepCount 2] none :=
  ⟨short_reference_error.1 [.stepCount 2, .stepCount 2] [5] (by decide)
      (by decide),
    short_reference_error.2 [.stepCount 2]⟩

set_option maxRecDepth 8000 in
/-- C8 counterexample: step count `361 > 0` gives step `360 // 361 = 0`, so
the schedule is 361 copies of the reference angle — not strictly
increasing. -/
theorem step_schedule_monotone_cex :
    (0 : Int) < 361 ∧
    get_separable_angle_list [Sampling.stepCount 361] (some [0]) =
      .ok [List.replicate 361 0] ∧
    ¬ (List.replicate 361 (0 : Int)).Pairwise (· < ·) := by
  refine ⟨by decide, by rfl, ?_⟩
  intro h
  have hsub : (List.replicate 2 (0 : Int)).Sublist (List.replicate 361 0) :=
    (List.replicate_sublist_replicate (0 : Int)).mpr (by omega)
  have h01 := List.Pairwise.sublist hsub h
  rw [show List.replicate 2 (0 : Int) = [0, 0] from rfl] at h01
  have := (List.pairwise_cons.mp h01).1 0 (by simp)
  omega

/-- C8, amended: for a step-count dimension `n > 0` with reference `r`,
consecutive schedule values always differ by the constant
`floor(360 / n)`; the schedule is strictly increasing exactly when that
step is positive, i.e. when additionally `n ≤ 360` (for `n ≥ 361` the
step is `0` and all values coincide). -/
theorem step_schedule_monotone {samplings : List Sampling} {orig : List Int}
    {scheds : List (List Int)} {ind : Nat} {n r : Int}
    (hok : get_separable_angle_list samplings (some orig) = .ok scheds)
    (hs : samplings[ind]? = some (.stepCount n))
    (hr : orig[ind]? = some r)
    (hn : 0 < n) :
    ∃ sched, scheds[ind]? = some sched ∧
      (∀ (k : Nat) (a b : Int), sched[k]? = some a → sched[k + 1]? = some b →
        b - a = 360 / n) ∧
      (n ≤ 360 → sched.Pairwise (· < ·)) := by
  refine ⟨sched_of r (.stepCount n), gsal_get_ok hok hs hr, ?_, ?_⟩
  · intro k a b ha hb
    rw [sched_of_stepCount_pos hn] at ha hb
    have hkb : k + 1 < n.toNat := by
      by_contra hge
      rw [List.getElem?_map, List.getElem?_eq_none (by simpa using hge)] at hb
      cases hb
    have hka : k < n.toNat := by omega
    rw [List.getElem?_map, List.getElem?_range hka] at ha
    rw [List.getElem?_map, List.getElem?_range hkb] at hb
    cases ha; cases hb
    push_cast
    ring
  · intro h360
    rw [sched_of_stepCount_pos hn]
    have hstep : 0 < 360 / n := by
      have h1 : (1 : Int) ≤ 360 / n := by
        rw [Int.le_ediv_iff_mul_le hn]
        omega
      omega
    refine List.Pairwise.map _ ?_ (List.pairwise_lt_range n.toNat)
    intro a b hab
    have : (a : Int) < (b : Int) := by exact_mod_cast hab
    have := mul_lt_mul_of_pos_right this hstep
    omega

/-! ### The Cartesian mesh -/

/-- Mesh size: the product of the per-dimension schedule lengths. -/
def prodLens (ls : List (List Int)) : Nat :=
  (ls.map List.length).prod

/-- Modelled from the spec's enumeration-order wording ("row-major order
where the last dimension varies fastest"): the tuple at mesh position `t`
read off the mixed-radix digits of `t`, most significant digit first.
Used only to state the order of `get_angle_mesh` and compare it with the
source's `itertools.product`. -/
def meshDecode : List (List Int) → Nat → List Int
  | [], _ => []
  | l :: ls, t => l.getD (t / prodLens ls) 0 :: meshDecode ls (t % prodLens ls)

theorem map_getD_range {α : Type} (l : List α) (d : α) :
    (List.range l.length).map (fun q => l.getD q d) = l := by
  induction l with
  | nil => rfl
  | cons a l ih =>
    rw [List.length_cons, List.range_succ_eq_map, List.map_cons, List.map_map]
    show a :: (List.range l.length).map (fun q => l.getD q d) = a :: l
    rw [ih]

theorem range_mul_eq_flatMap (L M : Nat) :
    List.range (L * M) = (List.range L).flatMap
      (fun q => (List.range M).map (fun r => q * M + r)) := by
  induction L with
  | zero => simp
  | succ L ih =>
    rw [Nat.succ_mul, List.range_add, ih, List.range_succ, List.flatMap_append]
    simp

theorem meshDecode_block {l : List Int} {ls : List (List Int)} {q r : Nat}
    (hr : r < prodLens ls) :
    meshDecode (l :: ls) (q * prodLens ls + r) = l.getD q 0 :: meshDecode ls r := by
  have hM : 0 < prodLens ls := Nat.pos_of_ne_zero (by omega)
  rw [meshDecode, mul_comm q, Nat.mul_add_div hM, Nat.mul_add_mod,
    Nat.div_eq_of_lt hr, Nat.mod_eq_of_lt hr, Nat.add_zero]

/-- `get_angle_mesh` enumerates exactly the row-major, last-dimension-
fastest order: position `t` holds the mixed-radix decoding of `t`. -/
theorem get_angle_mesh_eq_decode (ls : List (List Int)) :
    get_angle_mesh ls = (List.range (prodLens ls)).map (meshDecode ls) := by
  induction ls with
  | nil => rfl
  | cons l ls ih =>
    rw [get_angle_mesh, ih,
      show prodLens (l :: ls) = l.length * prodLens ls from by simp [prodLens],
      range_mul_eq_flatMap, List.map_flatMap]
    conv_lhs => rw [show l = (List.range l.length).map (fun q => l.getD q 0) from
      (map_getD_range l 0).symm]
    rw [List.flatMap_map]
    congr 1
    funext q
    rw [List.map_map, List.map_map]
    apply List.map_congr_left
    intro r hr
    rw [List.mem_range] at hr
    exact (meshDecode_block hr).symm

theorem meshDecode_length (ls : List (List Int)) :
    ∀ t, (meshDecode ls t).length = ls.length := by
  induction ls with
  | nil => intro t; rfl
  | cons l ls ih => intro t; simp [meshDecode, ih]

theorem get_angle_mesh_nil_mem {ls : List (List Int)}
    (h : ([] : List Int) ∈ ls) : get_angle_mesh ls = [] := by
  have h0 : prodLens ls = 0 :=
    List.prod_eq_zero (List.mem_map.mpr ⟨[], h, rfl⟩)
  rw [get_angle_mesh_eq_decode, h0]
  rfl

theorem get_angle_mesh_nodup {ls : List (List Int)}
    (h : ∀ l ∈ ls, l.Nodup) : (get_angle_mesh ls).Nodup := by
  induction ls with
  | nil => simp [get_angle_mesh]
  | cons l ls ih =>
    rw [get_angle_mesh, List.nodup_flatMap]
    constructor
    · intro x _
      exact (ih (fun m hm => h m (List.mem_cons_of_mem _ hm))).map
        (fun a b e => by injection e)
    · refine List.Pairwise.imp ?_ (h l (List.mem_cons_self _ _))
      intro a b hab t hta htb
      obtain ⟨ta, _, hta'⟩ := List.mem_map.mp hta
      obtain ⟨tb, _, htb'⟩ := List.mem_map.mp htb
      rw [← hta'] at htb'
      exact hab (List.cons.inj htb').1.symm

/-- C2 counterexample: a schedule that itself repeats a value yields a
mesh with duplicate tuples — the no-duplicates part of the claim fails for
arbitrary schedules. -/
theorem angle_mesh_duplicate_cex :
    get_angle_mesh [[0, 0]] = [[(0 : Int)], [0]] ∧
    ¬ ([[(0 : Int)], [0]] : List (List Int)).Nodup :=
  ⟨by rfl, by decide⟩

/-- C2, amended: `get_angle_mesh` yields `∏ lᵢ` tuples of length `D` in
row-major order with the last dimension fastest (including the spec's
`[[0,90],[0,180]]` example), and `0` tuples when a schedule is empty; the
tuples are pairwise distinct provided every schedule is duplicate-free
(a schedule repeating a value repeats tuples). -/
theorem angle_mesh_cartesian (ls : List (List Int)) :
    (get_angle_mesh ls).length = prodLens ls ∧
    (∀ t ∈ get_angle_mesh ls, t.length = ls.length) ∧
    ((∀ l ∈ ls, l.Nodup) → (get_angle_mesh ls).Nodup) ∧
    get_angle_mesh ls = (List.range (prodLens ls)).map (meshDecode ls) ∧
    (([] : List Int) ∈ ls → get_angle_mesh ls = []) ∧
    get_angle_mesh [[0, 90], [0, 180]] =
      [[0, 0], [0, 180], [90, 0], [90, 180]] := by
  refine ⟨?_, ?_, get_angle_mesh_nodup, get_angle_mesh_eq_decode ls,
    get_angle_mesh_nil_mem, by rfl⟩
  · rw [get_angle_mesh_eq_decode]; simp
  · intro t ht
    rw [get_angle_mesh_eq_decode] at ht
    obtain ⟨q, _, rfl⟩ := List.mem_map.mp ht
    exact meshDecode_length ls q

/-- Witness for `angle_mesh_cartesian` on the spec's own example. -/
theorem angle_mesh_cartesian_witness :
    (get_angle_mesh [[(0 : Int), 90], [0, 180]]).length =
      prodLens [[(0 : Int), 90], [0, 180]] ∧
    (get_angle_mesh [[(0 : Int), 90], [0, 180]]).Nodup :=
  ⟨(angle_mesh_cartesian [[(0 : Int), 90], [0, 180]]).1,
    (angle_mesh_cartesian [[(0 : Int), 90], [0, 180]]).2.2.1 (by decide)⟩

/-! ### The conformer store -/

/-- The `(index, record)` pairs the generation loop appends when started
at running index `ind` in handle state `s` over the remaining mesh. -/
def mkRecords {σ C : Type} (conf : RDKitConf σ C) (otf : Bool) :
    List (List Int) → Nat → σ → List (Nat × ConformerRecord C)
  | [], _, _ => []
  | angles :: rest, ind, s =>
    let s' := conf.SetAllTorsionsDeg s angles
    (ind,
      { angles := angles
        coords := conf.GetPositions s'
        colliding_atoms :=
          if otf then some (conf.HasCollidingAtoms s') else none }) ::
      mkRecords conf otf rest (ind + 1) s'

theorem dictInsert_fresh {α : Type} {d : List (Nat × α)} {k : Nat} (v : α)
    (h : ∀ p ∈ d, p.1 < k) : dictInsert d k v = d ++ [(k, v)] := by
  have hno : ¬(d.any (fun p => p.1 == k) = true) := by
    intro hc
    obtain ⟨p, hp, hpk⟩ := List.any_eq_true.mp hc
    rw [beq_iff_eq] at hpk
    exact absurd hpk (Nat.ne_of_lt (h p hp))
  rw [dictInsert, if_neg hno]

theorem confLoop_eq_append {σ C : Type} (conf : RDKitConf σ C) (otf : Bool) :
    ∀ (mesh : List (List Int)) (ind : Nat) (s : σ)
      (bk : List (Nat × ConformerRecord C)),
      (∀ p ∈ bk, p.1 < ind) →
      (confLoop conf otf mesh ind s bk).1 = bk ++ mkRecords conf otf mesh ind s := by
  intro mesh
  induction mesh with
  | nil => intro ind s bk _; simp [confLoop, mkRecords]
  | cons angles rest ih =>
    intro ind s bk h
    rw [confLoop, mkRecords, dictInsert_fresh _ h]
    rw [ih (ind + 1) _ _ ?bound]
    case bound =>
      intro p hp
      rcases List.mem_append.mp hp with hp | hp
      · exact Nat.lt_succ_of_lt (h p hp)
      · rcases List.mem_singleton.mp hp with rfl
        exact Nat.lt_succ_self ind
    rw [List.append_assoc]
    rfl

theorem mkRecords_length {σ C : Type} (conf : RDKitConf σ C) (otf : Bool) :
    ∀ (mesh : List (List Int)) (ind : Nat) (s : σ),
      (mkRecords conf otf mesh ind s).length = mesh.length := by
  intro mesh
  induction mesh with
  | nil => intro ind s; rfl
  | cons angles rest ih => intro ind s; simp [mkRecords, ih]

theorem mkRecords_fst {σ C : Type} (conf : RDKitConf σ C) (otf : Bool) :
    ∀ (mesh : List (List Int)) (ind : Nat) (s : σ),
      (mkRecords conf otf mesh ind s).map Prod.fst =
        List.range' ind mesh.length := by
  intro mesh
  induction mesh with
  | nil => intro ind s; rfl
  | cons angles rest ih =>
    intro ind s
    rw [mkRecords, List.length_cons, List.range'_succ, List.map_cons, ih]

theorem mkRecords_angles {σ C : Type} (conf : RDKitConf σ C) (otf : Bool) :
    ∀ (mesh : List (List Int)) (ind : Nat) (s : σ),
      (mkRecords conf otf mesh ind s).map (fun p => p.2.angles) = mesh := by
  intro mesh
  induction mesh with
  | nil => intro ind s; rfl
  | cons angles rest ih =>
    intro ind s
    rw [mkRecords, List.map_cons, ih]

theorem conformers_eq_mkRecords {σ C : Type} (conf : RDKitConf σ C) (s : σ)
    (mesh : List (List Int)) (torsions : Option (List (List Nat))) (otf : Bool) :
    (conformers_by_change_torsions conf s mesh [] torsions otf).1 =
      mkRecords conf otf mesh 0 s :=
  confLoop_eq_append conf otf mesh 0 s [] (by simp)

/-- C1: starting from an empty store, `conformers_by_change_torsions`
inserts exactly one record per mesh tuple, the keys in insertion order are
the dense contiguous integers `0..N-1` where `N` is the mesh length, and
the record at index `i` carries the `i`-th mesh tuple in its `angles`
field. -/
theorem conformer_store_dense_indexed {σ C : Type} (conf : RDKitConf σ C)
    (s : σ) (mesh : List (List Int)) (torsions : Option (List (List Nat)))
    (otf : Bool) :
    ((conformers_by_change_torsions conf s mesh [] torsions otf).1).length =
        mesh.length ∧
    ((conformers_by_change_torsions conf s mesh [] torsions otf).1).map
        Prod.fst = List.range mesh.length ∧
    ((conformers_by_change_torsions conf s mesh [] torsions otf).1).map
        (fun p => p.2.angles) = mesh := by
  rw [conformers_eq_mkRecords, mkRecords_length, mkRecords_fst,
    mkRecords_angles, List.range_eq_range']
  exact ⟨rfl, rfl, rfl⟩

theorem mkRecords_colliding_off {σ C : Type} (conf : RDKitConf σ C) :
    ∀ (mesh : List (List Int)) (ind : Nat) (s : σ)
      (p : Nat × ConformerRecord C),
      p ∈ mkRecords conf false mesh ind s → p.2.colliding_atoms = none := by
  intro mesh
  induction mesh with
  | nil => intro ind s p hp; simp [mkRecords] at hp
  | cons angles rest ih =>
    intro ind s p hp
    rw [mkRecords, List.mem_cons] at hp
    rcases hp with rfl | hp
    · rfl
    · exact ih (ind + 1) _ p hp

theorem mkRecords_colliding_on {σ C : Type} (conf : RDKitConf σ C) :
    ∀ (mesh : List (List Int)) (ind : Nat) (s : σ) (i : Nat)
      (p : Nat × ConformerRecord C),
      (mkRecords conf true mesh ind s)[i]? = some p →
      p.2.colliding_atoms = some (conf.HasCollidingAtoms
        ((mesh.take (i + 1)).foldl conf.SetAllTorsionsDeg s)) := by
  intro mesh
  induction mesh with
  | nil => intro ind s i p hp; simp [mkRecords] at hp
  | cons angles rest ih =>
    intro ind s i p hp
    rw [mkRecords] at hp
    cases i with
    | zero =>
      simp only [List.getElem?_cons_zero, Option.some.injEq] at hp
      rw [← hp]
      rfl
    | succ i =>
      rw [List.getElem?_cons_succ] at hp
      rw [ih (ind + 1) _ i p hp]
      rfl

/-- C6: with the on-the-fly check disabled every record's collision field
is the unknown sentinel `none`, never a boolean; with it enabled, the
record at index `i` carries exactly the boolean the handle's collision
predicate returns in the state reached after applying the `i`-th
assignment. -/
theorem colliding_flag_semantics {σ C : Type} (conf : RDKitConf σ C) (s : σ)
    (mesh : List (List Int)) (torsions : Option (List (List Nat))) :
    (∀ p ∈ (conformers_by_change_torsions conf s mesh [] torsions false).1,
      p.2.colliding_atoms = none) ∧
    (∀ (i : Nat) (p : Nat × ConformerRecord C),
      (conformers_by_change_torsions conf s mesh [] torsions true).1[i]? = some p →
      p.2.colliding_atoms = some (conf.HasCollidingAtoms
        ((mesh.take (i + 1)).foldl conf.SetAllTorsionsDeg s))) := by
  constructor
  · intro p hp
    rw [conformers_eq_mkRecords] at hp
    exact mkRecords_colliding_off conf mesh 0 s p hp
  · intro i p hp
    rw [conformers_eq_mkRecords] at hp
    exact mkRecords_colliding_on conf mesh 0 s i p hp

/-- A small concrete conformer handle used to witness the claims: the
state counts processed torsion entries, positions and the collision
predicate are functions of it. -/
def sampleConf : RDKitConf Nat Nat where
  SetAllTorsionsDeg := fun s a => s + a.length + 1
  GetPositions := fun s => s * 10
  HasCollidingAtoms := fun s => decide (s % 2 = 0)
  GetTorsionalModes := fun _ => [[0, 1, 2, 3]]

/-- The same handle behavior written differently (extensionally equal
methods). -/
def sampleConfB : RDKitConf Nat Nat where
  SetAllTorsionsDeg := fun s a => a.length + (s + 1)
  GetPositions := fun s => s * 10
  HasCollidingAtoms := fun s => decide (s % 2 = 0)
  GetTorsionalModes := fun _ => [[0, 1, 2, 3]]

/-- Witness for `colliding_flag_semantics` on a concrete handle and a
two-point mesh. -/
theorem colliding_flag_semantics_witness :
    ((1, ⟨[1], 40, some true⟩) : Nat × ConformerRecord Nat).2.colliding_atoms =
      some (sampleConf.HasCollidingAtoms
        ((([[0], [1]] : List (List Int)).take 2).foldl
          sampleConf.SetAllTorsionsDeg 0)) ∧
    (∀ p ∈ (conformers_by_change_torsions sampleConf 0 [[0], [1]] [] none
        false).1, p.2.colliding_atoms = none) :=
  ⟨(colliding_flag_semantics sampleConf 0 [[0], [1]] none).2 1
      (1, ⟨[1], 40, some true⟩) (by rfl),
    (colliding_flag_semantics sampleConf 0 [[0], [1]] none).1⟩

theorem confLoop_congr {σ C : Type} {c1 c2 : RDKitConf σ C} (otf : Bool)
    (hset : ∀ (st : σ) (a : List Int),
      c1.SetAllTorsionsDeg st a = c2.SetAllTorsionsDeg st a)
    (hpos : ∀ st, c1.GetPositions st = c2.GetPositions st)
    (hcol : ∀ st, c1.HasCollidingAtoms st = c2.HasCollidingAtoms st) :
    ∀ (mesh : List (List Int)) (ind : Nat) (st : σ)
      (bk : List (Nat × ConformerRecord C)),
      confLoop c1 otf mesh ind st bk = confLoop c2 otf mesh ind st bk := by
  intro mesh
  induction mesh with
  | nil => intro ind st bk; rfl
  | cons angles rest ih =>
    intro ind st bk
    rw [confLoop, confLoop, hset, hpos, hcol]
    exact ih (ind + 1) _ _

/-- C9: the pipeline is deterministic — two runs from the same inputs and
the same initial handle state, with handles exhibiting identical behavior,
produce identical stores (same angle tuples and coordinates at the same
indices, in the same order) and identical final states. -/
theorem generation_deterministic {σ C : Type} (c1 c2 : RDKitConf σ C) (s : σ)
    (samplings : List Sampling) (original_angles : Option (List Int))
    (otf : Bool)
    (hset : ∀ (st : σ) (a : List Int),
      c1.SetAllTorsionsDeg st a = c2.SetAllTorsionsDeg st a)
    (hpos : ∀ st, c1.GetPositions st = c2.GetPositions st)
    (hcol : ∀ st, c1.HasCollidingAtoms st = c2.HasCollidingAtoms st)
    (_hmod : ∀ st, c1.GetTorsionalModes st = c2.GetTorsionalModes st) :
    pipeline c1 s samplings original_angles otf =
      pipeline c2 s samplings original_angles otf := by
  rw [pipeline, pipeline]
  cases get_separable_angle_list samplings original_angles with
  | error e => rfl
  | ok scheds =>
    have : conformers_by_change_torsions c1 s (get_angle_mesh scheds) [] none otf
        = conformers_by_change_torsions c2 s (get_angle_mesh scheds) [] none otf := by
      rw [conformers_by_change_torsions, conformers_by_change_torsions]
      exact confLoop_congr otf hset hpos hcol (get_angle_mesh scheds) 0 s []
    show Except.ok (conformers_by_change_torsions c1 s (get_angle_mesh scheds)
        [] none otf) =
      Except.ok (conformers_by_change_torsions c2 s (get_angle_mesh scheds)
        [] none otf)
    rw [this]

/-- Witness for `generation_deterministic`: two syntactically different
but extensionally equal handles yield identical pipeline results. -/
theorem generation_deterministic_witness :
    pipeline sampleConf 0 [Sampling.stepCount 2] none true =
      pipeline sampleConfB 0 [Sampling.stepCount 2] none true :=
  generation_deterministic sampleConf sampleConfB 0 [.stepCount 2] none true
    (fun st a => by simp [sampleConf, sampleConfB]; omega)
    (fun _ => rfl) (fun _ => rfl) (fun _ => rfl)

/-- C10: a negative step count raises nothing and yields an empty schedule
for its dimension, so the Cartesian mesh is empty and the resulting store
has no records. -/
theorem negative_step_empty {samplings : List Sampling} {orig : List Int}
    {ind : Nat} {n : Int}
    (hs : samplings[ind]? = some (.stepCount n)) (hn : n < 0)
    (hlen : samplings.length ≤ orig.length) :
    ∃ scheds, get_separable_angle_list samplings (some orig) = .ok scheds ∧
      scheds[ind]? = some [] ∧ get_angle_mesh scheds = [] ∧
      ∀ (σ C : Type) (conf : RDKitConf σ C) (s : σ)
        (torsions : Option (List (List Nat))) (otf : Bool),
        (conformers_by_change_torsions conf s (get_angle_mesh scheds) []
          torsions otf).1 = [] := by
  have hind : ind < samplings.length := by
    cases h : samplings[ind]? with
    | none => rw [h] at hs; cases hs
    | some _ => exact (List.getElem?_eq_some_iff.mp h).1
  have hne : orig ≠ [] := by
    rintro rfl
    rw [List.length_nil, Nat.le_zero] at hlen
    omega
  have hlen0 : 0 + samplings.length ≤ orig.length := by omega
  obtain ⟨scheds, hok⟩ := gsalLoop_isOk samplings 0 hlen0
  have hok' : get_separable_angle_list samplings (some orig) = .ok scheds := by
    rw [gsal_some_of_ne_nil hne]; exact hok
  have hr : orig[ind]? = some (orig[ind]) :=
    List.getElem?_eq_getElem (by omega)
  have hsched : scheds[ind]? = some [] := by
    have := gsal_get_ok hok' hs hr
    rwa [sched_of_stepCount_neg hn] at this
  have hmesh : get_angle_mesh scheds = [] := by
    apply get_angle_mesh_nil_mem
    obtain ⟨h1, h2⟩ := List.getElem?_eq_some_iff.mp hsched
    exact h2 ▸ List.getElem_mem h1
  refine ⟨scheds, hok', hsched, hmesh, ?_⟩
  intro σ C conf s torsions otf
  rw [hmesh]
  rfl

/-- Witness for `negative_step_empty` at step count `-2` with reference
`[7]`. -/
theorem negative_step_empty_witness :
    ∃ scheds, get_separable_angle_list [Sampling.stepCount (-2)] (some [7]) =
        .ok scheds ∧
      scheds[0]? = some [] ∧ get_angle_mesh scheds = [] ∧
      ∀ (σ C : Type) (conf : RDKitConf σ C) (s : σ)
        (torsions : Option (List (List Nat))) (otf : Bool),
        (conformers_by_change_torsions conf s (get_angle_mesh scheds) []
          torsions otf).1 = [] :=
  negative_step_empty (by rfl) (by decide) (by decide)

/-- Witness for `step_count_zero_single`: a zero step count with reference
`[25]` succeeds with schedule `[25]`. -/
theorem step_count_zero_single_witness :
    ∃ scheds, get_separable_angle_list [Sampling.stepCount 0] (some [25]) =
        .ok scheds ∧ scheds[0]? = some [25] :=
  step_count_zero_single (by rfl) (by rfl) (by decide)

/-- Witness for `step_schedule_monotone`: step count `3` with reference
`5` gives `[5, 125, 245]`, constant step `120`, strictly increasing. -/
theorem step_schedule_monotone_witness :
    ∃ sched, ([[(5 : Int), 125, 245]] : List (List Int))[0]? = some sched ∧
      (∀ (k : Nat) (a b : Int), sched[k]? = some a → sched[k + 1]? = some b →
        b - a = 360 / 3) ∧
      ((3 : Int) ≤ 360 → sched.Pairwise (· < ·)) :=
  @step_schedule_monotone [.stepCount 3] [5] [[5, 125, 245]] 0 3 5
    (by rfl) (by rfl) (by rfl) (by decide)
